import Mathlib

/-!
Shallow embedding of `summarize_invoices.py` (PDF-invoice-summer).

Conventions of the embedding:
* Python floats are modelled as exact rationals (`ℚ`); `round(x, 2)` is
  modelled as round-half-to-even on the exact rational (`pyRound2`).
* Text is modelled as `List Char`; byte content of files as `List ℕ`.
* The amount regex
  `(-\s*)?(?:(?:€|EUR)\s*(NUM)|(NUM)\s*(?:€|EUR))` with
  `NUM = \d{1,3}(?:[.,]\d{3})*(?:[.,]\d{2})` (IGNORECASE)
  is embedded as an explicit matcher with the same greedy/backtracking
  match order; `re.finditer` is the scan `scan` below.
-/

/-- Truth of `0 ≤ d ≤ 9` for a character, as in the regex class `\d`. -/
def isDigitCh (c : Char) : Bool := c.isDigit

/-- Membership in the regex class `[.,]`. -/
def isSep (c : Char) : Bool := c = '.' || c = ','

/-- Numeric value of a digit character. -/
def digVal (c : Char) : ℕ := c.toNat - '0'.toNat

/-- Value of a digit string, most significant digit first (as `int`/`float`
digit parsing does). -/
def natOfDigits (l : List Char) : ℕ := l.foldl (fun n c => 10 * n + digVal c) 0

/-- Python `round` to an integer: round half to even on the exact rational. -/
def roundHalfEven (q : ℚ) : ℤ :=
  let f := ⌊q⌋
  let r := q - (f : ℚ)
  if r < 1/2 then f
  else if 1/2 < r then f + 1
  else if f % 2 = 0 then f else f + 1

/-- Python `round(x, 2)` on the exact rational value. -/
def pyRound2 (q : ℚ) : ℚ := (roundHalfEven (q * 100) : ℚ) / 100

/-- Two-digit zero-padded decimal string for a natural number below 100. -/
def pad2 (m : ℕ) : String := if m < 10 then "0" ++ toString m else toString m

/-- Python `f"{x:.2f}"` fixed-point formatting on the exact rational. -/
def fmt2 (q : ℚ) : String :=
  let n := roundHalfEven (q * 100)
  let sign := if n < 0 then "-" else ""
  let m := n.natAbs
  sign ++ toString (m / 100) ++ "." ++ pad2 (m % 100)

/-- Python `str.strip()` (whitespace trimming at both ends). -/
def pyStrip (s : List Char) : List Char :=
  ((s.dropWhile Char.isWhitespace).reverse.dropWhile Char.isWhitespace).reverse

/-- Unsigned part of a Python `float` decimal literal: digits with at most one
dot and at least one digit (`"12"`, `"12."`, `".5"`, `"12.34"`). Modelled
fragment of the builtin `float`: exponents, `inf`/`nan` and underscores never
occur in this program's inputs and are not modelled. -/
def parseUF (s : List Char) : Option ℚ :=
  let ip := s.takeWhile isDigitCh
  let rest := s.dropWhile isDigitCh
  match rest with
  | [] => if ip.isEmpty then none else some ((natOfDigits ip : ℚ))
  | '.' :: fp =>
      if fp.all isDigitCh && !(ip.isEmpty && fp.isEmpty) then
        some ((natOfDigits ip : ℚ) + (natOfDigits fp : ℚ) / (10 : ℚ) ^ fp.length)
      else none
  | _ => none

/-- Python `float(s)` on a decimal literal: optional surrounding whitespace,
optional sign, then an unsigned decimal literal. -/
def pyFloat (s : List Char) : Option ℚ :=
  match pyStrip s with
  | '-' :: r => (parseUF r).map (fun q => -q)
  | '+' :: r => parseUF r
  | r => parseUF r

/-- Python `int(s)`: optional surrounding whitespace, optional sign, then a
nonempty digit string. -/
def pyInt (s : List Char) : Option ℤ :=
  match pyStrip s with
  | '-' :: r => if !r.isEmpty && r.all isDigitCh then some (-(natOfDigits r : ℤ)) else none
  | '+' :: r => if !r.isEmpty && r.all isDigitCh then some ((natOfDigits r : ℤ)) else none
  | r => if !r.isEmpty && r.all isDigitCh then some ((natOfDigits r : ℤ)) else none

/-- Matcher for the final fragment `[.,]\d{2}` of `NUM`. Returns the matched
characters and the remaining input. -/
def matchFrac : List Char → Option (List Char × List Char)
  | s :: a :: b :: rest =>
      if isSep s && isDigitCh a && isDigitCh b then some ([s, a, b], rest) else none
  | _ => none

/-- Matcher for `(?:[.,]\d{3})*(?:[.,]\d{2})`, in the regex engine's greedy
order: take another three-digit group if possible, falling back to the
two-digit fraction when the rest of the pattern cannot complete. -/
def matchTail (l : List Char) : Option (List Char × List Char) :=
  match l with
  | s :: a :: b :: c :: rest =>
      if isSep s && isDigitCh a && isDigitCh b && isDigitCh c then
        match matchTail rest with
        | some (m, r) => some (s :: a :: b :: c :: m, r)
        | none => matchFrac (s :: a :: b :: c :: rest)
      else matchFrac (s :: a :: b :: c :: rest)
  | _ => matchFrac l

/-- Matcher for `\d{1}` followed by `matchTail` (last alternative of the
greedy `\d{1,3}`). -/
def lead1 (l : List Char) : Option (List Char × List Char) :=
  match l with
  | a :: rest =>
      if isDigitCh a then
        match matchTail rest with
        | some (m, r) => some (a :: m, r)
        | none => none
      else none
  | [] => none

/-- Matcher for `\d{2}` followed by `matchTail`, falling back to `lead1`. -/
def lead2 (l : List Char) : Option (List Char × List Char) :=
  match l with
  | a :: b :: _rest =>
      if isDigitCh a && isDigitCh b then
        match matchTail (l.drop 2) with
        | some (m, r) => some (a :: b :: m, r)
        | none => lead1 l
      else lead1 l
  | _ => lead1 l

/-- Matcher for `NUM = \d{1,3}(?:[.,]\d{3})*(?:[.,]\d{2})`, trying the lead
digit counts in the greedy order 3, 2, 1. -/
def matchNum (l : List Char) : Option (List Char × List Char) :=
  match l with
  | a :: b :: c :: _rest =>
      if isDigitCh a && isDigitCh b && isDigitCh c then
        match matchTail (l.drop 3) with
        | some (m, r) => some (a :: b :: c :: m, r)
        | none => lead2 l
      else lead2 l
  | _ => lead2 l

/-- Matcher for `(?:€|EUR)` under `re.IGNORECASE`: the one-character symbol
alternative first, then the three-letter code, case-insensitively. -/
def matchCurrency (l : List Char) : Option (List Char) :=
  match l with
  | a :: rest =>
      if a = '€' then some rest
      else
        match rest with
        | b :: c :: rest2 =>
            if a.toUpper = 'E' && b.toUpper = 'U' && c.toUpper = 'R' then some rest2 else none
        | [] => none
        | [_] => none
  | [] => none

/-- Matcher for the alternation `(?:(?:€|EUR)\s*(NUM)|(NUM)\s*(?:€|EUR))`,
returning the captured numeral and the rest of the input. No backtracking
into `matchNum` is needed: every non-greedy parse of `NUM` is immediately
followed by a digit, which can never begin `\s*(?:€|EUR)`; and when the
currency-first branch consumes a currency token the input starts with a
non-digit, so the number-first branch cannot match there either. -/
def matchBody (l : List Char) : Option (List Char × List Char) :=
  match matchCurrency l with
  | some r =>
      match matchNum (r.dropWhile Char.isWhitespace) with
      | some (n, rest) => some (n, rest)
      | none => none
  | none =>
      match matchNum l with
      | some (n, r) =>
          match matchCurrency (r.dropWhile Char.isWhitespace) with
          | some rest => some (n, rest)
          | none => none
      | none => none

/-- Matcher for the full pattern `(-\s*)?(?:...)` at one position, returning
(sign present, captured numeral, rest). When a leading `-` is present but the
body fails, the signless alternative cannot match either (the body starts
with a currency symbol or digit, never `-`), so the whole position fails. -/
def matchAt (l : List Char) : Option (Bool × List Char × List Char) :=
  match l with
  | a :: r =>
      if a = '-' then
        match matchBody (r.dropWhile Char.isWhitespace) with
        | some (n, rest) => some (true, n, rest)
        | none => none
      else
        match matchBody (a :: r) with
        | some (n, rest) => some (false, n, rest)
        | none => none
  | [] => none

theorem matchFrac_length {l : List Char} {m r : List Char}
    (h : matchFrac l = some (m, r)) : r.length < l.length := by
  match l with
  | s :: a :: b :: rest =>
    simp only [matchFrac] at h
    split at h
    · cases h; simp only [List.length_cons]; omega
    · cases h
  | [] => cases h
  | [_] => cases h
  | [_, _] => cases h

theorem matchTail_length {l : List Char} {m r : List Char}
    (h : matchTail l = some (m, r)) : r.length < l.length := by
  match l with
  | s :: a :: b :: c :: rest =>
    rw [matchTail] at h
    split at h
    · split at h
      next m' r' heq =>
        cases h
        have := matchTail_length heq
        simp only [List.length_cons]
        omega
      next => exact matchFrac_length h
    · exact matchFrac_length h
  | [] => exact matchFrac_length h
  | [_] => exact matchFrac_length h
  | [_, _] => exact matchFrac_length h
  | [_, _, _] => exact matchFrac_length h

theorem lead1_length {l : List Char} {m r : List Char}
    (h : lead1 l = some (m, r)) : r.length < l.length := by
  match l with
  | a :: rest =>
    simp only [lead1] at h
    split at h
    · split at h
      next m' r' heq =>
        cases h
        have := matchTail_length heq
        simp only [List.length_cons]
        omega
      next => cases h
    · cases h
  | [] => cases h

theorem lead2_length {l : List Char} {m r : List Char}
    (h : lead2 l = some (m, r)) : r.length < l.length := by
  match l with
  | a :: b :: rest =>
    simp only [lead2] at h
    split at h
    · split at h
      next m' r' heq =>
        cases h
        have := matchTail_length heq
        simp only [List.drop, List.length_cons] at *
        omega
      next => exact lead1_length h
    · exact lead1_length h
  | [] => exact lead1_length h
  | [_] => exact lead1_length h

theorem matchNum_length {l : List Char} {m r : List Char}
    (h : matchNum l = some (m, r)) : r.length < l.length := by
  match l with
  | a :: b :: c :: rest =>
    simp only [matchNum] at h
    split at h
    · split at h
      next m' r' heq =>
        cases h
        have := matchTail_length heq
        simp only [List.drop, List.length_cons] at *
        omega
      next => exact lead2_length h
    · exact lead2_length h
  | [] => exact lead2_length h
  | [_] => exact lead2_length h
  | [_, _] => exact lead2_length h

theorem dropWhile_len (p : Char → Bool) (l : List Char) :
    (l.dropWhile p).length ≤ l.length :=
  (List.dropWhile_sublist p).length_le

theorem matchCurrency_length {l : List Char} {r : List Char}
    (h : matchCurrency l = some r) : r.length < l.length := by
  match l with
  | [] => cases h
  | [a] =>
    rw [matchCurrency] at h
    split at h
    · cases h; simp
    · cases h
  | [a, b] =>
    rw [matchCurrency] at h
    split at h
    · cases h; simp
    · cases h
  | a :: b :: c :: rest =>
    rw [matchCurrency] at h
    split at h
    · cases h; simp
    · split at h
      · cases h; simp only [List.length_cons]; omega
      · cases h

theorem matchBody_length {l : List Char} {n rest : List Char}
    (h : matchBody l = some (n, rest)) : rest.length < l.length := by
  rw [matchBody] at h
  split at h
  next r hcur =>
    split at h
    next n' rest' hnum =>
      cases h
      have h1 := matchCurrency_length hcur
      have h2 := matchNum_length hnum
      have h3 := dropWhile_len Char.isWhitespace r
      omega
    next => cases h
  next =>
    split at h
    next n' r' hnum =>
      split at h
      next r2 hcur =>
        cases h
        have h1 := matchNum_length hnum
        have h2 := matchCurrency_length hcur
        have h3 := dropWhile_len Char.isWhitespace r'
        omega
      next => cases h
    next => cases h

theorem matchAt_length {l : List Char} {sg : Bool} {n rest : List Char}
    (h : matchAt l = some (sg, n, rest)) : rest.length < l.length := by
  match l with
  | a :: r =>
    rw [matchAt] at h
    split at h
    · split at h
      next n' rest' hbody =>
        cases h
        have h1 := matchBody_length hbody
        have h2 := dropWhile_len Char.isWhitespace r
        simp only [List.length_cons]
        omega
      next => cases h
    · split at h
      next n' rest' hbody =>
        cases h
        exact matchBody_length hbody
      next => cases h
  | [] => cases h

/-- Fuel-driven worker for the `re.finditer` scan: at each position try the
full pattern; on a match emit (sign, numeral) and continue after the match,
otherwise advance one character. The fuel is only a structural-recursion
device; `scanAux_fuel` below shows any fuel of at least the input length
gives the same result, since every match consumes at least one character
(`matchAt_length`). -/
def scanAux : ℕ → List Char → List (Bool × List Char)
  | 0, _ => []
  | _, [] => []
  | fuel + 1, a :: cs =>
      match matchAt (a :: cs) with
      | some (sg, n, rest) => (sg, n) :: scanAux fuel rest
      | none => scanAux fuel cs

/-- Embedding of `re.finditer` over the whole input. -/
def scan (l : List Char) : List (Bool × List Char) := scanAux l.length l

theorem scanAux_nil : ∀ f : ℕ, scanAux f [] = [] := by
  intro f
  cases f <;> rfl

theorem scanAux_fuel (l : List Char) (f1 f2 : ℕ) (h1 : l.length ≤ f1) (h2 : l.length ≤ f2) :
    scanAux f1 l = scanAux f2 l := by
  match l, f1, f2 with
  | [], f1, f2 => rw [scanAux_nil, scanAux_nil]
  | a :: cs, 0, f2 => exact absurd h1 (by simp)
  | a :: cs, g1 + 1, 0 => exact absurd h2 (by simp)
  | a :: cs, g1 + 1, g2 + 1 =>
    rw [scanAux, scanAux]
    simp only [List.length_cons] at h1 h2
    match hm : matchAt (a :: cs) with
    | some (sg, n, rest) =>
      have hlen := matchAt_length hm
      simp only [List.length_cons] at hlen
      have e1 := scanAux_fuel rest g1 g2 (by omega) (by omega)
      dsimp only
      rw [e1]
    | none =>
      have e1 := scanAux_fuel cs g1 g2 (by omega) (by omega)
      dsimp only
      rw [e1]
termination_by l.length
decreasing_by
  all_goals simp only [List.length_cons] at *
  all_goals omega

/-- Normalization of a matched numeral, embedding
`num_str.replace('.', '').replace(',', '.')`. -/
def clean (n : List Char) : List Char :=
  (n.filter (fun c => c ≠ '.')).map (fun c => if c = ',' then '.' else c)

/-- Embedding of the extraction loop of `analyze_invoice_text` (lines
121-132): for every match, normalize and parse the numeral, dropping parse
failures, and append the amount to the discounts on a sign marker and to the
positive amounts otherwise. Returns (positive_amounts, discounts) in match
order, unsorted. -/
def extractRaw (content : List Char) : List ℚ × List ℚ :=
  (scan content).foldl
    (fun acc t =>
      match pyFloat (clean t.2) with
      | some amount => if t.1 then (acc.1, acc.2 ++ [amount]) else (acc.1 ++ [amount], acc.2)
      | none => acc)
    ([], [])

/-- Insertion of one element into a descending list, after all elements that
are at least as large (so that equal elements keep their original relative
order). -/
def insertDesc (x : ℚ) : List ℚ → List ℚ
  | [] => [x]
  | y :: ys => if x ≤ y then y :: insertDesc x ys else x :: y :: ys

/-- Python `list.sort(reverse=True)`: the stable descending sort, embedded as
a stable insertion sort (the same input-output function). -/
def sortDesc (l : List ℚ) : List ℚ := l.foldl (fun acc x => insertDesc x acc) []

/-- The four status constants of the source. -/
def STATUS_OK : String := "OK"

/-- Status constant for the auto-applied-discount outcome. -/
def STATUS_APPLIED_DISCOUNT : String := "APPLIED_DISCOUNT"

/-- Status constant for the needs-interaction outcome. -/
def STATUS_NEEDS_INTERACTION : String := "NEEDS_INTERACTION"

/-- Status constant for the no-amount outcome. -/
def STATUS_NO_AMOUNT : String := "NO_AMOUNT"

/-- Embedding of the namedtuple `InvoiceData`. -/
structure InvoiceData where
  total : Option ℚ
  notes : String
  status : String
  positive_amounts : List ℚ
  discounts : List ℚ
deriving DecidableEq, Repr

/-- Embedding of lines 134-151 of `analyze_invoice_text`: the reconciliation
of the raw (positive_amounts, discounts) pair, including the in-place
descending sorts the source performs there. This is the spec's
`reconcile(positives, discounts)` contract. -/
def reconcile (positive_amounts discounts : List ℚ) : InvoiceData :=
  if positive_amounts.isEmpty then
    ⟨none, "No amount found", STATUS_NO_AMOUNT, [], []⟩
  else
    let pa := sortDesc positive_amounts
    let ds := sortDesc discounts
    if ds.isEmpty then
      ⟨some (pa.headD 0), "", STATUS_OK, pa, ds⟩
    else
      let main_total := pa.headD 0
      let calculated_total := pyRound2 (main_total - ds.headD 0)
      if calculated_total ∈ pa.map pyRound2 then
        ⟨some calculated_total,
          "Discounts found: " ++ String.intercalate ", " (ds.map (fun d => "-" ++ fmt2 d)) ++
            ". Applied -" ++ fmt2 (ds.headD 0) ++ ".",
          STATUS_APPLIED_DISCOUNT, pa, ds⟩
      else
        ⟨some main_total,
          "Discounts found: " ++ String.intercalate ", " (ds.map (fun d => "-" ++ fmt2 d)) ++
            ". WARNING: Could not automatically apply.",
          STATUS_NEEDS_INTERACTION, pa, ds⟩

/-- Embedding of the whole `analyze_invoice_text`. -/
def analyze_invoice_text (content : List Char) : InvoiceData :=
  reconcile (extractRaw content).1 (extractRaw content).2

/-- The spec's `extract(text)` contract: the two amount sequences in
descending order. -/
def extract (content : List Char) : List ℚ × List ℚ :=
  (sortDesc (extractRaw content).1, sortDesc (extractRaw content).2)

/-- Embedding of the multi-select branch of `interactive_discount_resolver`
(lines 203-223), after the comma-separated choices have been parsed: validate
every index against `[1, len(discounts)]`; any invalid index re-prompts with
nothing applied (`none`); otherwise sum the selected discounts and resolve.
The empty-selection fall-through also re-prompts. -/
def discountSelect (p0 : ℚ) (discounts : List ℚ) (choices : List ℤ) :
    Option (ℚ × String) :=
  if choices.all (fun c => decide (1 ≤ c) && decide (c ≤ (discounts.length : ℤ))) then
    let selected := choices.map (fun c => discounts.getD (c - 1).toNat 0)
    if selected.isEmpty then none
    else
      some (pyRound2 (p0 - selected.sum),
        "Manually applied discount(s) of " ++
          String.intercalate ", " (selected.map fmt2) ++ ".")
  else none

/-- Python `str.split(',')`: split on every comma; the empty string yields
one empty piece. -/
def splitOnComma (s : List Char) : List (List Char) :=
  match s with
  | [] => [[]]
  | c :: cs =>
      if c = ',' then [] :: splitOnComma cs
      else
        match splitOnComma cs with
        | g :: gs => (c :: g) :: gs
        | [] => [[c]]

/-- Embedding of `[int(c.strip()) for c in choice_str.split(',')]`; a failing
`int()` raises `ValueError`, modelled as `none`. -/
def parseChoices (s : String) : Option (List ℤ) :=
  (splitOnComma s.toList).mapM pyInt

/-- Embedding of the manual-entry branch (lines 187-196): `float(...)` on the
operator's input, accepted unconditionally once it parses. -/
def manualEntry (s : String) : Option (ℚ × String) :=
  (pyFloat s.toList).map (fun q => (q, "Manually entered total."))

/-- Embedding of the duplicate-grouping dict building of
`detect_and_handle_duplicates` (lines 22-31): an insertion-ordered
association list from fingerprint to the filenames carrying it, in listing
order. The digest function is a parameter; the source uses SHA-256 of the
file bytes, treated as an opaque pure function here. -/
def addDoc (m : List (List ℕ × List String)) (k : List ℕ) (f : String) :
    List (List ℕ × List String) :=
  match m with
  | [] => [(k, [f])]
  | (k2, fs) :: rest => if k2 = k then (k2, fs ++ [f]) :: rest else (k2, fs) :: addDoc rest k f

/-- Builds the full fingerprint-to-filenames mapping over a batch of
(filename, content) documents. -/
def buildHashes (dg : List ℕ → List ℕ) (docs : List (String × List ℕ)) :
    List (List ℕ × List String) :=
  docs.foldl (fun m d => addDoc m (dg d.2) d.1) []

/-- Embedding of the reporting filter (lines 34-35): only fingerprint groups
with more than one filename are surfaced. -/
def findDuplicates (dg : List ℕ → List ℕ) (docs : List (String × List ℕ)) :
    List (List ℕ × List String) :=
  (buildHashes dg docs).filter (fun g => decide (1 < g.2.length))

/-- Lookup of the filename group stored for a fingerprint. -/
def groupOf (m : List (List ℕ × List String)) (k : List ℕ) : List String :=
  match m with
  | [] => []
  | (k2, fs) :: rest => if k2 = k then fs else groupOf rest k

/-- Maximum of a list of rationals (Python `max` over a nonempty list;
0 as the irrelevant default for the empty list). -/
def listMax : List ℚ → ℚ
  | [] => 0
  | x :: xs => xs.foldl max x

theorem insertDesc_perm (x : ℚ) (l : List ℚ) : List.Perm (insertDesc x l) (x :: l) := by
  induction l with
  | nil => exact List.Perm.refl _
  | cons y ys ih =>
    rw [insertDesc]
    split
    · exact ((ih.cons y).trans (List.Perm.swap x y ys))
    · exact List.Perm.refl _

theorem sortDesc_foldl_perm :
    ∀ (l acc : List ℚ), List.Perm (l.foldl (fun a x => insertDesc x a) acc) (acc ++ l) := by
  intro l
  induction l with
  | nil => intro acc; simp
  | cons x xs ih =>
    intro acc
    have h1 := ih (insertDesc x acc)
    have h2 : List.Perm (insertDesc x acc ++ xs) ((x :: acc) ++ xs) :=
      List.Perm.append_right xs (insertDesc_perm x acc)
    have h3 : List.Perm (x :: (acc ++ xs)) (acc ++ x :: xs) := List.perm_middle.symm
    exact (h1.trans h2).trans h3

theorem sortDesc_perm (l : List ℚ) : List.Perm (sortDesc l) l :=
  sortDesc_foldl_perm l []

theorem mem_sortDesc {x : ℚ} {l : List ℚ} : x ∈ sortDesc l ↔ x ∈ l :=
  (sortDesc_perm l).mem_iff

theorem mem_insertDesc {a x : ℚ} {l : List ℚ} : a ∈ insertDesc x l ↔ a = x ∨ a ∈ l := by
  rw [(insertDesc_perm x l).mem_iff, List.mem_cons]

theorem insertDesc_sorted {x : ℚ} {l : List ℚ} (h : l.Pairwise (· ≥ ·)) :
    (insertDesc x l).Pairwise (· ≥ ·) := by
  induction l with
  | nil => simp [insertDesc]
  | cons y ys ih =>
    rw [insertDesc]
    obtain ⟨hy, hys⟩ := List.pairwise_cons.mp h
    split
    next hle =>
      refine List.pairwise_cons.mpr ⟨?_, ih hys⟩
      intro b hb
      rcases mem_insertDesc.mp hb with rfl | hb
      · exact hle
      · exact hy b hb
    next hgt =>
      push_neg at hgt
      refine List.pairwise_cons.mpr ⟨?_, h⟩
      intro b hb
      rcases List.mem_cons.mp hb with rfl | hb
      · exact le_of_lt hgt
      · exact le_trans (hy b hb) (le_of_lt hgt)

theorem sortDesc_foldl_sorted :
    ∀ (l acc : List ℚ), acc.Pairwise (· ≥ ·) →
      (l.foldl (fun a x => insertDesc x a) acc).Pairwise (· ≥ ·) := by
  intro l
  induction l with
  | nil => intro acc h; exact h
  | cons x xs ih => intro acc h; exact ih (insertDesc x acc) (insertDesc_sorted h)

theorem sortDesc_sorted (l : List ℚ) : (sortDesc l).Pairwise (· ≥ ·) :=
  sortDesc_foldl_sorted l [] (List.Pairwise.nil)

theorem sortDesc_eq_nil {l : List ℚ} : sortDesc l = [] ↔ l = [] := by
  constructor
  · intro h
    have hp := sortDesc_perm l
    rw [h] at hp
    exact hp.symm.eq_nil
  · intro h
    subst h
    rfl

theorem foldl_max_mem : ∀ (xs : List ℚ) (a : ℚ), xs.foldl max a = a ∨ xs.foldl max a ∈ xs := by
  intro xs
  induction xs with
  | nil => intro a; left; rfl
  | cons x xs ih =>
    intro a
    rcases ih (max a x) with h | h
    · rcases max_choice a x with hm | hm
      · left; rw [List.foldl_cons, h, hm]
      · right; rw [List.foldl_cons, h, hm]; exact List.mem_cons_self x xs
    · right; exact List.mem_cons_of_mem x h

theorem le_foldl_max : ∀ (xs : List ℚ) (a : ℚ),
    a ≤ xs.foldl max a ∧ ∀ x ∈ xs, x ≤ xs.foldl max a := by
  intro xs
  induction xs with
  | nil => intro a; exact ⟨le_refl a, by intro x hx; cases hx⟩
  | cons y ys ih =>
    intro a
    obtain ⟨h1, h2⟩ := ih (max a y)
    refine ⟨le_trans (le_max_left a y) h1, ?_⟩
    intro x hx
    rcases List.mem_cons.mp hx with rfl | hx
    · exact le_trans (le_max_right a x) h1
    · exact h2 x hx

theorem listMax_mem {l : List ℚ} (h : l ≠ []) : listMax l ∈ l := by
  match l with
  | x :: xs =>
    rcases foldl_max_mem xs x with hm | hm
    · rw [listMax, hm]; exact List.mem_cons_self x xs
    · exact List.mem_cons_of_mem x hm

theorem le_listMax {x : ℚ} {l : List ℚ} (h : x ∈ l) : x ≤ listMax l := by
  match l with
  | y :: ys =>
    rcases List.mem_cons.mp h with rfl | hx
    · exact (le_foldl_max ys x).1
    · exact (le_foldl_max ys y).2 x hx

theorem sortDesc_headD {l : List ℚ} (h : l ≠ []) : (sortDesc l).headD 0 = listMax l := by
  have hnil : sortDesc l ≠ [] := fun hn => h (sortDesc_eq_nil.mp hn)
  match hs : sortDesc l with
  | [] => exact absurd hs hnil
  | a :: t =>
    have hmem : a ∈ l := mem_sortDesc.mp (by rw [hs]; exact List.mem_cons_self a t)
    have hmax : listMax l ∈ a :: t := by rw [← hs]; exact mem_sortDesc.mpr (listMax_mem h)
    have hsorted := sortDesc_sorted l
    rw [hs] at hsorted
    rcases List.mem_cons.mp hmax with hm | hm
    · simp [hm]
    · have := (List.pairwise_cons.mp hsorted).1 (listMax l) hm
      exact le_antisymm (le_listMax hmem) this

theorem sortDesc_nil : sortDesc [] = [] := rfl

theorem sortDesc_isEmpty (l : List ℚ) : (sortDesc l).isEmpty = l.isEmpty := by
  cases l with
  | nil => rfl
  | cons x xs =>
    cases hs : sortDesc (x :: xs) with
    | nil => exact absurd (sortDesc_eq_nil.mp hs) (by simp)
    | cons y ys => rfl

theorem mem_map_sortDesc {x : ℚ} {f : ℚ → ℚ} {l : List ℚ} :
    x ∈ (sortDesc l).map f ↔ x ∈ l.map f := by
  constructor
  · intro h
    obtain ⟨a, ha, rfl⟩ := List.mem_map.mp h
    exact List.mem_map.mpr ⟨a, mem_sortDesc.mp ha, rfl⟩
  · intro h
    obtain ⟨a, ha, rfl⟩ := List.mem_map.mp h
    exact List.mem_map.mpr ⟨a, mem_sortDesc.mpr ha, rfl⟩

theorem reconcile_nil (D : List ℚ) :
    reconcile [] D = ⟨none, "No amount found", STATUS_NO_AMOUNT, [], []⟩ := rfl

theorem reconcile_clean {P : List ℚ} (hP : P ≠ []) :
    reconcile P [] = ⟨some (listMax P), "", STATUS_OK, sortDesc P, []⟩ := by
  match P with
  | p :: ps =>
    have hh := sortDesc_headD (show p :: ps ≠ [] by simp)
    simp only [reconcile, List.isEmpty_cons, Bool.false_eq_true, if_false, sortDesc_nil,
      List.isEmpty_nil, if_true, hh]

theorem reconcile_both {P D : List ℚ} (hP : P ≠ []) (hD : D ≠ []) :
    reconcile P D =
      if pyRound2 (listMax P - listMax D) ∈ P.map pyRound2 then
        ⟨some (pyRound2 (listMax P - listMax D)),
          "Discounts found: " ++ String.intercalate ", " ((sortDesc D).map (fun d => "-" ++ fmt2 d)) ++
            ". Applied -" ++ fmt2 (listMax D) ++ ".",
          STATUS_APPLIED_DISCOUNT, sortDesc P, sortDesc D⟩
      else
        ⟨some (listMax P),
          "Discounts found: " ++ String.intercalate ", " ((sortDesc D).map (fun d => "-" ++ fmt2 d)) ++
            ". WARNING: Could not automatically apply.",
          STATUS_NEEDS_INTERACTION, sortDesc P, sortDesc D⟩ := by
  match P, D with
  | p :: ps, d :: ds =>
    have hhP := sortDesc_headD (show p :: ps ≠ [] by simp)
    have hhD := sortDesc_headD (show d :: ds ≠ [] by simp)
    have hne : (sortDesc (d :: ds)).isEmpty = false := by
      rw [sortDesc_isEmpty]; rfl
    simp only [reconcile, List.isEmpty_cons, Bool.false_eq_true, if_false, hne, hhP, hhD,
      mem_map_sortDesc]

set_option maxRecDepth 8000

/-- C2: reconciliation is a total case analysis choosing exactly one of four
outcomes by precedence: empty positives yield NoAmount with no total;
positives with no discounts yield Clean (status OK) with total `max P`;
both non-empty with `round(max P - max D, 2)` among the 2-rounded positives
yield AutoApplied with that value as total; otherwise NeedsInteraction with
total `max P`. -/
theorem reconcile_cases (P D : List ℚ) :
    (P = [] → reconcile P D = ⟨none, "No amount found", STATUS_NO_AMOUNT, [], []⟩)
    ∧ (P ≠ [] → D = [] →
        (reconcile P D).status = STATUS_OK ∧ (reconcile P D).total = some (listMax P))
    ∧ (P ≠ [] → D ≠ [] → pyRound2 (listMax P - listMax D) ∈ P.map pyRound2 →
        (reconcile P D).status = STATUS_APPLIED_DISCOUNT ∧
        (reconcile P D).total = some (pyRound2 (listMax P - listMax D)))
    ∧ (P ≠ [] → D ≠ [] → pyRound2 (listMax P - listMax D) ∉ P.map pyRound2 →
        (reconcile P D).status = STATUS_NEEDS_INTERACTION ∧
        (reconcile P D).total = some (listMax P)) := by
  refine ⟨?_, ?_, ?_, ?_⟩
  · intro h
    subst h
    exact reconcile_nil D
  · intro hP hD
    subst hD
    rw [reconcile_clean hP]
    exact ⟨rfl, rfl⟩
  · intro hP hD hmem
    rw [reconcile_both hP hD, if_pos hmem]
    exact ⟨rfl, rfl⟩
  · intro hP hD hmem
    rw [reconcile_both hP hD, if_neg hmem]
    exact ⟨rfl, rfl⟩

/-- Witness for C2: the four branches evaluated at concrete inputs. -/
theorem reconcile_cases_witness :
    reconcile [] [(5 : ℚ)] = ⟨none, "No amount found", STATUS_NO_AMOUNT, [], []⟩
    ∧ ((reconcile [(100 : ℚ)] []).status = STATUS_OK ∧
        (reconcile [(100 : ℚ)] []).total = some (listMax [(100 : ℚ)]))
    ∧ ((reconcile [(100 : ℚ), 90] [10]).status = STATUS_APPLIED_DISCOUNT ∧
        (reconcile [(100 : ℚ), 90] [10]).total =
          some (pyRound2 (listMax [(100 : ℚ), 90] - listMax [(10 : ℚ)])))
    ∧ ((reconcile [(100 : ℚ)] [10]).status = STATUS_NEEDS_INTERACTION ∧
        (reconcile [(100 : ℚ)] [10]).total = some (listMax [(100 : ℚ)])) := by
  refine ⟨(reconcile_cases [] [5]).1 rfl,
    (reconcile_cases [100] []).2.1 (by simp) rfl,
    (reconcile_cases [100, 90] [10]).2.2.1 (by simp) (by simp) ?_,
    (reconcile_cases [100] [10]).2.2.2 (by simp) (by simp) ?_⟩
  · norm_num [listMax, max_def, pyRound2, roundHalfEven]
  · norm_num [listMax, max_def, pyRound2, roundHalfEven]

/-- C4, counterexample: a NeedsInteraction result does carry a resolved
total (the provisional max positive), refuting "a NeedsInteraction (pending)
result carries no resolved total". -/
theorem needs_interaction_total_counterexample :
    (reconcile [(100 : ℚ)] [10]).status = STATUS_NEEDS_INTERACTION ∧
    (reconcile [(100 : ℚ)] [10]).total ≠ none := by
  have hmem : pyRound2 (listMax [(100 : ℚ)] - listMax [(10 : ℚ)]) ∉
      ([(100 : ℚ)]).map pyRound2 := by
    norm_num [listMax, pyRound2, roundHalfEven]
  rw [reconcile_both (show [(100 : ℚ)] ≠ [] by simp) (show [(10 : ℚ)] ≠ [] by simp),
    if_neg hmem]
  exact ⟨rfl, by simp⟩

/-- C4 as amended: the total field of a reconciliation result is present iff
the outcome is not NoAmount; a NeedsInteraction result carries the
provisional `max(positives)` as its total. -/
theorem total_presence_amended (P D : List ℚ) :
    ((reconcile P D).total ≠ none ↔ (reconcile P D).status ≠ STATUS_NO_AMOUNT)
    ∧ ((reconcile P D).status = STATUS_NEEDS_INTERACTION →
        (reconcile P D).total = some (listMax P)) := by
  match P with
  | [] =>
    rw [reconcile_nil]
    exact ⟨by simp, fun h => absurd h (by decide)⟩
  | p :: ps =>
    have hP : p :: ps ≠ [] := by simp
    match D with
    | [] =>
      rw [reconcile_clean hP]
      exact ⟨iff_of_true (by simp) (show STATUS_OK ≠ STATUS_NO_AMOUNT by decide),
        fun h => absurd h (show STATUS_OK ≠ STATUS_NEEDS_INTERACTION by decide)⟩
    | d :: ds =>
      have hD : d :: ds ≠ [] := by simp
      rw [reconcile_both hP hD]
      by_cases hmem : pyRound2 (listMax (p :: ps) - listMax (d :: ds)) ∈ (p :: ps).map pyRound2
      · rw [if_pos hmem]
        exact ⟨iff_of_true (by simp)
            (show STATUS_APPLIED_DISCOUNT ≠ STATUS_NO_AMOUNT by decide),
          fun h => absurd h
            (show STATUS_APPLIED_DISCOUNT ≠ STATUS_NEEDS_INTERACTION by decide)⟩
      · rw [if_neg hmem]
        exact ⟨iff_of_true (by simp)
            (show STATUS_NEEDS_INTERACTION ≠ STATUS_NO_AMOUNT by decide),
          fun _ => rfl⟩

/-- Witness for C4's amended theorem at a concrete NeedsInteraction input. -/
theorem total_presence_amended_witness :
    (reconcile [(100 : ℚ)] [10]).total = some (listMax [(100 : ℚ)]) := by
  refine (total_presence_amended [100] [10]).2 ?_
  have hmem : pyRound2 (listMax [(100 : ℚ)] - listMax [(10 : ℚ)]) ∉
      ([(100 : ℚ)]).map pyRound2 := by
    norm_num [listMax, pyRound2, roundHalfEven]
  rw [reconcile_both (show [(100 : ℚ)] ≠ [] by simp) (show [(10 : ℚ)] ≠ [] by simp),
    if_neg hmem]

/-- C8: when extraction finds discounts but no positive amount, the result is
the NoAmount record with no total and both sequences empty: the found
discounts are discarded. -/
theorem discounts_without_positives (t : List Char)
    (h1 : (extractRaw t).1 = []) (h2 : (extractRaw t).2 ≠ []) :
    analyze_invoice_text t = ⟨none, "No amount found", STATUS_NO_AMOUNT, [], []⟩ := by
  rw [analyze_invoice_text, h1]
  exact reconcile_nil _

/-- Witness for C8 on the text "- 5,00 €", which contains one discount and no
positive amount. -/
theorem discounts_without_positives_witness :
    analyze_invoice_text "- 5,00 €".toList =
      ⟨none, "No amount found", STATUS_NO_AMOUNT, [], []⟩ := by
  have hs : scan "- 5,00 €".toList = [(true, "5,00".toList)] := by decide
  have hv : pyFloat (clean ['5', ',', '0', '0']) = some ((5 : ℚ) + 0 / 10 ^ 2) := rfl
  have hraw : extractRaw "- 5,00 €".toList = ([], [(5 : ℚ) + 0 / 10 ^ 2]) := by
    simp only [extractRaw, hs, List.foldl, hv]
    simp
  exact discounts_without_positives _ (by rw [hraw]) (by rw [hraw]; simp)

/-- C1, counterexample: on the US-convention text "€ 1,234.56" (a legal match
of the grammar), extraction yields 1.23456, not 1234.56 — the normalization
deletes every '.' and treats ',' as the decimal point instead of removing the
group separators of the matched convention. -/
theorem us_convention_counterexample :
    extract "€ 1,234.56".toList = ([1.23456], []) ∧ ((1.23456 : ℚ) ≠ 1234.56) := by
  constructor
  · have hs : scan "€ 1,234.56".toList = [(false, "1,234.56".toList)] := by decide
    have hv : pyFloat (clean ['1', ',', '2', '3', '4', '.', '5', '6']) =
        some ((1 : ℚ) + 23456 / 10 ^ 5) := rfl
    simp only [extract, extractRaw, hs, List.foldl, hv]
    norm_num [sortDesc, insertDesc]
  · norm_num

/-- C1 as amended: normalization deletes all '.' characters and converts ','
to the decimal point, so the European form "1.234,56" yields 1234.56 while
the US form "1,234.56" yields 1.23456. -/
theorem normalization_amended :
    extract "€ 1.234,56".toList = ([1234.56], [])
    ∧ extract "€ 1,234.56".toList = ([1.23456], []) := by
  constructor
  · have hs : scan "€ 1.234,56".toList = [(false, "1.234,56".toList)] := by decide
    have hv : pyFloat (clean ['1', '.', '2', '3', '4', ',', '5', '6']) =
        some ((1234 : ℚ) + 56 / 10 ^ 2) := rfl
    simp only [extract, extractRaw, hs, List.foldl, hv]
    norm_num [sortDesc, insertDesc]
  · have hs : scan "€ 1,234.56".toList = [(false, "1,234.56".toList)] := by decide
    have hv : pyFloat (clean ['1', ',', '2', '3', '4', '.', '5', '6']) =
        some ((1 : ℚ) + 23456 / 10 ^ 5) := rfl
    simp only [extract, extractRaw, hs, List.foldl, hv]
    norm_num [sortDesc, insertDesc]

/-- C3, counterexample: the numeral "1.234.56", which uses '.' both as group
separator and as decimal separator, is matched as an amount: extraction on
"€ 1.234.56" produces a (cleaned) positive amount 123456, refuting "a numeral
using the same character for both roles is not matched". -/
theorem same_separator_counterexample :
    extract "€ 1.234.56".toList = ([123456], [])
    ∧ (extract "€ 1.234.56".toList).1 ≠ [] := by
  have hs : scan "€ 1.234.56".toList = [(false, "1.234.56".toList)] := by decide
  have hv : pyFloat (clean ['1', '.', '2', '3', '4', '.', '5', '6']) = some ((123456 : ℚ)) := rfl
  have he : extract "€ 1.234.56".toList = ([123456], []) := by
    simp only [extract, extractRaw, hs, List.foldl, hv]
    norm_num [sortDesc, insertDesc]
  exact ⟨he, by rw [he]; simp⟩

/-- C3 as amended: each separator position of the grammar accepts '.' or ','
independently, so the two separators of one match need not differ:
"1.234.56" is matched (normalizing to 123456, since every '.' is deleted),
and "1,234,56" is also matched but then dropped, because after normalization
"1.234.56" fails to parse as a float. -/
theorem separator_grammar_amended :
    extract "€ 1.234.56".toList = ([123456], [])
    ∧ extract "€ 1,234,56".toList = ([], []) := by
  constructor
  · have hs : scan "€ 1.234.56".toList = [(false, "1.234.56".toList)] := by decide
    have hv : pyFloat (clean ['1', '.', '2', '3', '4', '.', '5', '6']) =
        some ((123456 : ℚ)) := rfl
    simp only [extract, extractRaw, hs, List.foldl, hv]
    norm_num [sortDesc, insertDesc]
  · have hs : scan "€ 1,234,56".toList = [(false, "1,234,56".toList)] := by decide
    have hv : pyFloat (clean ['1', ',', '2', '3', '4', ',', '5', '6']) = (none : Option ℚ) := rfl
    simp only [extract, extractRaw, hs, List.foldl, hv]
    norm_num [sortDesc]

/-- C7: extraction and reconciliation are deterministic pure functions; the
two sequences extraction returns are sorted in descending order, and that
ordering is the unique descending ordering of the extracted multiset (so for
equal amounts any stable tie order coincides with it). -/
theorem extraction_deterministic (t : List Char) :
    extract t = extract t
    ∧ (extract t).1.Pairwise (· ≥ ·)
    ∧ (extract t).2.Pairwise (· ≥ ·)
    ∧ (∀ l2 : List ℚ, List.Perm l2 (extract t).1 → l2.Pairwise (· ≥ ·) → l2 = (extract t).1)
    ∧ ∀ (P D : List ℚ), reconcile P D = reconcile P D :=
  ⟨rfl, sortDesc_sorted (extractRaw t).1, sortDesc_sorted (extractRaw t).2,
    fun l2 hp hs => List.eq_of_perm_of_sorted hp hs (sortDesc_sorted (extractRaw t).1),
    fun _ _ => rfl⟩

/-- Witness for C7's uniqueness conjunct at a concrete input. -/
theorem extraction_deterministic_witness :
    ([] : List ℚ) = (extract "".toList).1 :=
  (extraction_deterministic "".toList).2.2.2.1 [] (by rfl) List.Pairwise.nil

/-- C5: in the multi-select (DiscountSelect) step, any index outside
`[1, len(discounts)]` re-prompts with no discount applied (`none`); when all
indices are valid the resolved total is `round(max(positives) - sum, 2)` over
the selected discounts, and on the spec's example — input "1,2" over
discounts [5.00, 3.00] with max positive 100.00 — the total is 92.00 and the
note names both applied discounts. -/
theorem discount_select_spec (p0 : ℚ) (ds : List ℚ) (cs : List ℤ) :
    ((∃ c ∈ cs, c < 1 ∨ (ds.length : ℤ) < c) → discountSelect p0 ds cs = none)
    ∧ (cs ≠ [] → (∀ c ∈ cs, 1 ≤ c ∧ c ≤ (ds.length : ℤ)) →
        discountSelect p0 ds cs =
          some (pyRound2 (p0 - (cs.map (fun c => ds.getD (c - 1).toNat 0)).sum),
            "Manually applied discount(s) of " ++
              String.intercalate ", " ((cs.map (fun c => ds.getD (c - 1).toNat 0)).map fmt2) ++
              "."))
    ∧ (parseChoices "1,2" = some [1, 2]
        ∧ discountSelect 100 [(5 : ℚ), 3] [1, 2] =
            some (92, "Manually applied discount(s) of 5.00, 3.00.")) := by
  refine ⟨?_, ?_, ?_, ?_⟩
  · rintro ⟨c, hc, hbad⟩
    have hall : cs.all (fun c => decide (1 ≤ c) && decide (c ≤ (ds.length : ℤ))) = false := by
      rw [List.all_eq_false]
      refine ⟨c, hc, ?_⟩
      simp only [Bool.and_eq_true, decide_eq_true_eq, not_and_or, not_le]
      rcases hbad with h | h
      · exact Or.inl h
      · exact Or.inr h
    simp [discountSelect, hall]
  · intro hne hall
    have hall' : cs.all (fun c => decide (1 ≤ c) && decide (c ≤ (ds.length : ℤ))) = true := by
      rw [List.all_eq_true]
      intro c hc
      obtain ⟨h1, h2⟩ := hall c hc
      simp [h1, h2]
    have hsel : (cs.map (fun c => ds.getD (c - 1).toNat 0)).isEmpty = false := by
      match cs, hne with
      | c :: cs2, _ => rfl
    simp only [discountSelect, hall', if_true, hsel, Bool.false_eq_true, if_false]
  · decide
  · have h5 : fmt2 (5 : ℚ) = "5.00" := by
      norm_num [fmt2, roundHalfEven, pad2]
      decide
    have h3 : fmt2 (3 : ℚ) = "3.00" := by
      norm_num [fmt2, roundHalfEven, pad2]
      decide
    simp [discountSelect, List.getD, h5, h3, pyRound2, roundHalfEven]
    constructor
    · norm_num [Int.fract]
    · decide

/-- Witness for C5: an out-of-range index [9] re-prompts; the all-valid
selection [1, 2] resolves to the rounded difference. -/
theorem discount_select_spec_witness :
    discountSelect 100 [(5 : ℚ), 3] [9] = none
    ∧ discountSelect 100 [(5 : ℚ), 3] [1, 2] =
        some (pyRound2 (100 - (([1, 2] : List ℤ).map
            (fun c => [(5 : ℚ), 3].getD (c - 1).toNat 0)).sum),
          "Manually applied discount(s) of " ++
            String.intercalate ", " ((([1, 2] : List ℤ).map
              (fun c => [(5 : ℚ), 3].getD (c - 1).toNat 0)).map fmt2) ++ ".") :=
  ⟨(discount_select_spec 100 [5, 3] [9]).1 ⟨9, by simp, Or.inr (by norm_num)⟩,
   (discount_select_spec 100 [5, 3] [1, 2]).2.1 (by simp)
     (by intro c hc; simp only [List.mem_cons, List.not_mem_nil, or_false] at hc
         rcases hc with rfl | rfl <;> exact ⟨by norm_num, by norm_num⟩)⟩

/-- C9: repeated indices in the multi-select step are applied cumulatively
(no deduplication and no rejection): selecting "1,1" over the single discount
list [d] subtracts d twice; concretely, "1,1" over [5.00] with max positive
100.00 resolves to 90.00 with the discount named twice. -/
theorem repeated_indices_cumulative :
    (∀ (p0 d : ℚ), discountSelect p0 [d] [1, 1] =
        some (pyRound2 (p0 - (d + d)),
          "Manually applied discount(s) of " ++
            String.intercalate ", " [fmt2 d, fmt2 d] ++ "."))
    ∧ parseChoices "1,1" = some [1, 1]
    ∧ discountSelect 100 [(5 : ℚ)] [1, 1] =
        some (90, "Manually applied discount(s) of 5.00, 5.00.") := by
  refine ⟨?_, by decide, ?_⟩
  · intro p0 d
    simp [discountSelect, List.getD]
  · have h5 : fmt2 (5 : ℚ) = "5.00" := by
      norm_num [fmt2, roundHalfEven, pad2]
      decide
    simp [discountSelect, List.getD, h5, pyRound2, roundHalfEven]
    constructor
    · norm_num [Int.fract]
    · decide

/-- C10: manual entry accepts any parseable decimal without a sign or range
check; the operator input "-5" yields the negative resolved total -5. -/
theorem manual_entry_accepts_negative :
    manualEntry "-5" = some (-5, "Manually entered total.") ∧ ((-5 : ℚ) < 0) :=
  ⟨rfl, by norm_num⟩

theorem groupOf_addDoc_self (m : List (List ℕ × List String)) (k : List ℕ) (f : String) :
    groupOf (addDoc m k f) k = groupOf m k ++ [f] := by
  induction m with
  | nil => simp [addDoc, groupOf]
  | cons p rest ih =>
    obtain ⟨k2, fs⟩ := p
    by_cases h : k2 = k
    · subst h
      simp [addDoc, groupOf]
    · simp [addDoc, groupOf, h, ih]

theorem groupOf_addDoc_other (m : List (List ℕ × List String)) (k k2 : List ℕ) (f : String)
    (h : k2 ≠ k) : groupOf (addDoc m k f) k2 = groupOf m k2 := by
  have hne : ¬(k = k2) := fun hc => h hc.symm
  induction m with
  | nil => simp [addDoc, groupOf, hne]
  | cons p rest ih =>
    obtain ⟨k3, fs⟩ := p
    by_cases h3 : k3 = k
    · subst h3
      simp [addDoc, groupOf, hne]
    · simp [addDoc, groupOf, h3, ih]

theorem mem_groupOf_foldl (dg : List ℕ → List ℕ) (docs : List (String × List ℕ)) :
    ∀ (m : List (List ℕ × List String)) (k : List ℕ) (f : String),
      f ∈ groupOf m k →
      f ∈ groupOf (docs.foldl (fun m d => addDoc m (dg d.2) d.1) m) k := by
  induction docs with
  | nil => intro m k f h; exact h
  | cons d rest ih =>
    intro m k f h
    apply ih
    by_cases hk : dg d.2 = k
    · subst hk
      rw [groupOf_addDoc_self]
      exact List.mem_append_left _ h
    · rw [groupOf_addDoc_other _ _ _ _ (Ne.symm hk)]
      exact h

theorem mem_groupOf_build (dg : List ℕ → List ℕ) :
    ∀ (docs : List (String × List ℕ)) (m : List (List ℕ × List String))
      (f : String) (c : List ℕ),
      (f, c) ∈ docs →
      f ∈ groupOf (docs.foldl (fun m d => addDoc m (dg d.2) d.1) m) (dg c) := by
  intro docs
  induction docs with
  | nil => intro m f c h; cases h
  | cons d rest ih =>
    intro m f c h
    rcases List.mem_cons.mp h with heq | h2
    · subst heq
      rw [List.foldl_cons]
      refine mem_groupOf_foldl dg rest _ _ _ ?_
      rw [groupOf_addDoc_self]
      exact List.mem_append_right _ (by simp)
    · exact ih _ f c h2

theorem groupOf_mem : ∀ (m : List (List ℕ × List String)) (k : List ℕ),
    groupOf m k ≠ [] → (k, groupOf m k) ∈ m := by
  intro m
  induction m with
  | nil => intro k h; exact absurd rfl h
  | cons p rest ih =>
    intro k h
    obtain ⟨k2, fs⟩ := p
    by_cases hk : k2 = k
    · subst hk
      rw [show groupOf ((k2, fs) :: rest) k2 = fs from by simp [groupOf]] at h ⊢
      exact List.mem_cons_self _ _
    · rw [show groupOf ((k2, fs) :: rest) k = groupOf rest k from by simp [groupOf, hk]] at h ⊢
      exact List.mem_cons_of_mem _ (ih k h)

/-- C6: duplicate grouping keys only on the digest of a document's content
bytes, so any two documents with identical content land in the same group of
the fingerprint map, whatever their filenames; and every reported duplicate
group has at least 2 filenames. The digest function is an arbitrary
parameter, as the source's SHA-256 is an opaque pure function. -/
theorem duplicate_grouping (dg : List ℕ → List ℕ) (docs : List (String × List ℕ))
    (f1 f2 : String) (c : List ℕ) :
    ((f1, c) ∈ docs → (f2, c) ∈ docs →
      ∃ g, g ∈ buildHashes dg docs ∧ f1 ∈ g.2 ∧ f2 ∈ g.2)
    ∧ (∀ g, g ∈ findDuplicates dg docs → 2 ≤ g.2.length) := by
  constructor
  · intro h1 h2
    have m1 : f1 ∈ groupOf (buildHashes dg docs) (dg c) := mem_groupOf_build dg docs [] f1 c h1
    have m2 : f2 ∈ groupOf (buildHashes dg docs) (dg c) := mem_groupOf_build dg docs [] f2 c h2
    have hne : groupOf (buildHashes dg docs) (dg c) ≠ [] := by
      intro hcon
      rw [hcon] at m1
      cases m1
    exact ⟨(dg c, groupOf (buildHashes dg docs) (dg c)), groupOf_mem _ _ hne, m1, m2⟩
  · intro g hg
    have hf := (List.mem_filter.mp hg).2
    simp only [decide_eq_true_eq] at hf
    omega

/-- Witness for C6: two files with byte-identical content [0] are grouped
together, and the reported group has 2 members. -/
theorem duplicate_grouping_witness :
    (∃ g, g ∈ buildHashes (fun b => b) [("a.txt", [0]), ("b.txt", [0])] ∧
      "a.txt" ∈ g.2 ∧ "b.txt" ∈ g.2)
    ∧ 2 ≤ (([(0 : ℕ)], ["a.txt", "b.txt"]) : List ℕ × List String).2.length :=
  ⟨(duplicate_grouping (fun b => b) [("a.txt", [0]), ("b.txt", [0])] "a.txt" "b.txt" [0]).1
      (by simp) (by simp),
    (duplicate_grouping (fun b => b) [("a.txt", [0]), ("b.txt", [0])] "a.txt" "b.txt" [0]).2
      ([0], ["a.txt", "b.txt"]) (by decide)⟩
